import Mathlib

/-!
Verification of the devloop orchestrator against its specification.

Each section shallowly embeds one part of the TypeScript source:
SQLite tables become lists of records, queries become list traversals,
fallible operations return `Option`/`Except`, and the event-driven agent
supervisor becomes a discrete-event trace semantics.
-/

namespace Devloop

/-! ### PR state repository (src/store/pr-states.ts)

The `pr_state` table is modelled as a list of rows; `pr_number` carries a
UNIQUE index in the schema, and `.get` on a query returns the first row,
which we model with `List.find?`. -/

structure PRStateRecord where
  pr_number : Nat
  design_id : String
  stage : String
  ci_status : String
  review_status : String
  deriving Repr, DecidableEq

abbrev PRTable := List PRStateRecord

/-- `SELECT ... FROM pr_state WHERE pr_number = ?` followed by `.get`. -/
def getPRRow (db : PRTable) (prNumber : Nat) : Option PRStateRecord :=
  db.find? (fun r => r.pr_number == prNumber)

/-- `PRStateRepository.checkReadyForHuman`: looks up the row for `prNumber`;
returns `false` when absent, otherwise tests
`ci_status === "passing" && review_status === "passing"`. -/
def checkReadyForHuman (db : PRTable) (prNumber : Nat) : Bool :=
  match getPRRow db prNumber with
  | none => false
  | some row => row.ci_status == "passing" && row.review_status == "passing"

/-- `SELECT stage FROM pr_state WHERE design_id = ?` followed by `.all`. -/
def rowsByDesign (db : PRTable) (designId : String) : List PRStateRecord :=
  db.filter (fun r => r.design_id == designId)

/-- `PRStateRepository.checkAllSiblingsMerged`: fetches all rows of the
design; `false` on the empty set, otherwise `rows.every(stage === "merged")`. -/
def checkAllSiblingsMerged (db : PRTable) (designId : String) : Bool :=
  let rows := rowsByDesign db designId
  if rows.length == 0 then false
  else rows.all (fun r => r.stage == "merged")

/-! ### Chat webhook verifier (src/webhooks/verify/slack.ts)

`verify` reads two headers, applies the replay-window check on the parsed
timestamp, then checks configuration and the HMAC signature.  The HMAC
computation itself is external crypto; the comparison outcome enters the
model as the boolean `signatureMatches`, and the parsed integer value of the
timestamp header enters as `timestamp` (in seconds, as `parseInt` yields). -/

def REPLAY_WINDOW_MS : Int := 5 * 60 * 1000

inductive VerifyError where
  | missingTimestamp
  | missingSignature
  | replay
  | noSecret
  | badSignature
  deriving Repr, DecidableEq

/-- `SlackVerifier.verify`, with `now = Date.now()` in milliseconds and the
timestamp header value in seconds.  The checks run in source order: header
presence, replay window, secret configuration, signature comparison. -/
def slackVerify (now : Int) (timestamp : Option Int) (signature : Option String)
    (secretConfigured : Bool) (signatureMatches : Bool) : Except VerifyError Unit :=
  match timestamp with
  | none => Except.error VerifyError.missingTimestamp
  | some t =>
    match signature with
    | none => Except.error VerifyError.missingSignature
    | some _ =>
      let requestTime : Int := t * 1000
      if REPLAY_WINDOW_MS < |now - requestTime| then
        Except.error VerifyError.replay
      else if !secretConfigured then
        Except.error VerifyError.noSecret
      else if !signatureMatches then
        Except.error VerifyError.badSignature
      else
        Except.ok ()

/-! ### Source-control event parser (src/webhooks/parsers/github.ts)

`parseCheckSuite` reads the `check_suite` object out of the webhook body.
Absent JSON fields are `Option.none`; the `?? fallback` operators of the
source become `Option.getD`.  The random event id is omitted from the model
(it is fresh randomness, not payload-determined). -/

structure PRRef where
  number : Option Nat
  deriving Repr, DecidableEq

structure CheckRunOutput where
  title : Option String
  summary : Option String
  deriving Repr, DecidableEq

structure CheckRun where
  output : Option CheckRunOutput
  deriving Repr, DecidableEq

structure CheckSuite where
  conclusion : Option String
  head_branch : Option String
  pull_requests : Option (List PRRef)
  deriving Repr, DecidableEq

structure CheckSuiteBody where
  check_suite : Option CheckSuite
  check_runs : Option (List CheckRun)
  deriving Repr, DecidableEq

inductive SCEvent where
  | ciFailed (prNumber : Nat) (branch : String) (logs : String)
  | ciPassed (prNumber : Nat) (branch : String)
  deriving Repr, DecidableEq

/-- `extractCheckRunLogs`: formats `title\nsummary` per check run, trims,
drops empties, joins with blank lines. -/
def extractCheckRunLogs (body : CheckSuiteBody) : String :=
  match body.check_runs with
  | none => ""
  | some runs =>
    if runs.isEmpty then ""
    else
      let logs := (runs.map (fun run =>
        match run.output with
        | none => ""
        | some o =>
          String.trim ((o.title.getD "") ++ "\n" ++ (o.summary.getD "")))).filter
        (fun s => s.length > 0)
      String.intercalate "\n\n" logs

/-- `GitHubEventParser.parseCheckSuite`. -/
def parseCheckSuite (body : CheckSuiteBody) : List SCEvent :=
  match body.check_suite with
  | none => []
  | some suite =>
    let headBranch := suite.head_branch.getD ""
    let pullRequests := suite.pull_requests.getD []
    let prNumber :=
      match pullRequests with
      | [] => 0
      | pr :: _ => pr.number.getD 0
    if suite.conclusion == some "failure" || suite.conclusion == some "timed_out" then
      [SCEvent.ciFailed prNumber headBranch (extractCheckRunLogs body)]
    else if suite.conclusion == some "success" then
      [SCEvent.ciPassed prNumber headBranch]
    else []

/-! ### Agent output parser (src/utils/parse-agent-output.ts)

`parseAgentOutput(raw)` first runs `JSON.parse(raw)` inside a try/catch.
The parse outcome enters the model as `Option Json` (`none` = the parse
threw); JS numbers are modelled as rationals.  The function never throws —
in the model it is total by construction, as in the source every path
returns and the catch swallows the only throwing call. -/

inductive Json where
  | null
  | bool (b : Bool)
  | num (q : Rat)
  | str (s : String)
  | arr (xs : List Json)
  | obj (fields : List (String × Json))

/-- JS property access `obj[k]` on a parsed JSON object (parsed objects have
unique keys, the last duplicate winning at parse time). -/
def lookupField (fields : List (String × Json)) (k : String) : Option Json :=
  (fields.find? (fun p => p.1 == k)).map (fun p => p.2)

/-- `typeof v === "string"` guard. -/
def asStr : Option Json → Option String
  | some (Json.str s) => some s
  | _ => none

/-- `typeof v === "number"` guard. -/
def asNum : Option Json → Option Rat
  | some (Json.num q) => some q
  | _ => none

/-- `typeof v === "boolean"` guard. -/
def asBool : Option Json → Option Bool
  | some (Json.bool b) => some b
  | _ => none

structure ParsedAgentOutput where
  result : Option String := none
  cost_usd : Option Rat := none
  duration_ms : Option Rat := none
  duration_api_ms : Option Rat := none
  num_turns : Option Rat := none
  is_error : Option Bool := none
  session_id : Option String := none
  deriving Repr, DecidableEq

/-- `parseAgentOutput`: parse failure, `null`, arrays and non-object values
all yield `{ result: raw }`; an object yields exactly the correctly-typed
fields, wrong-typed fields dropped. -/
def parseAgentOutput (parsed : Option Json) (raw : String) : ParsedAgentOutput :=
  match parsed with
  | none => { result := some raw }
  | some (Json.obj fields) =>
    { result := asStr (lookupField fields "result")
      cost_usd := asNum (lookupField fields "cost_usd")
      duration_ms := asNum (lookupField fields "duration_ms")
      duration_api_ms := asNum (lookupField fields "duration_api_ms")
      num_turns := asNum (lookupField fields "num_turns")
      is_error := asBool (lookupField fields "is_error")
      session_id := asStr (lookupField fields "session_id") }
  | some _ => { result := some raw }

/-- One optional field of a JSON object literal. -/
def optField (k : String) : Option Json → List (String × Json)
  | none => []
  | some v => [(k, v)]

/-- The JSON value of `JSON.stringify` applied to an agent-output object
whose present fields all have the correct runtime types. -/
def mkAgentJson (result : Option String)
    (cost_usd duration_ms duration_api_ms num_turns : Option Rat)
    (is_error : Option Bool) (session_id : Option String) : Json :=
  Json.obj (optField "result" (result.map Json.str) ++
    optField "cost_usd" (cost_usd.map Json.num) ++
    optField "duration_ms" (duration_ms.map Json.num) ++
    optField "duration_api_ms" (duration_api_ms.map Json.num) ++
    optField "num_turns" (num_turns.map Json.num) ++
    optField "is_error" (is_error.map Json.bool) ++
    optField "session_id" (session_id.map Json.str))

/-! ### Agent supervisor (src/agents/claude.ts, `runAgent`)

`runAgent` races three outcomes over the spawned subprocess: completion
(stdout reaches EOF, then the process exits), the heartbeat watchdog
(armed at start, re-armed on every stdout chunk, fires after `heartbeatMs`
of silence, kills the process and resolves `success=false` with the output
collected so far), and the hard timeout (fires at `timeoutMs`, kills the
process and rejects the promise).  The `drainDone` flag makes the first
event to fire the only one that settles.

The subprocess enters the model as a discrete-event trace: stdout chunks
at increasing arrival times with their decoded payloads, plus an optional
exit event `(time, exitCode)` no earlier than the last chunk.  `settle`
picks the earliest of the three candidate events; at a tie the source's
behaviour depends on JS timer registration order, so the theorems below
only invoke strictly ordered configurations. -/

structure AgentTrace where
  chunks : List (Nat × String)
  exit : Option (Nat × Nat)

/-- Fire time of the heartbeat watchdog: armed at time `a`, re-armed by
every chunk that arrives before the pending deadline (`armHeartbeat`). -/
def hbFire (hb : Nat) : Nat → List Nat → Nat
  | a, [] => a + hb
  | a, c :: cs => if c < a + hb then hbFire hb c cs else a + hb

/-- `collectOutput()` at time `t`: the chunks pushed strictly before `t`. -/
def outputBefore (chunks : List (Nat × String)) (t : Nat) : String :=
  String.join ((chunks.filter (fun c => c.1 < t)).map (fun c => c.2))

/-- `collectOutput()` after EOF: every chunk. -/
def allOutput (tr : AgentTrace) : String :=
  String.join (tr.chunks.map (fun c => c.2))

inductive RunOutcome where
  | completed (exitCode : Nat) (output : String)
  | heartbeat (output : String)
  | timeout
  deriving Repr, DecidableEq

/-- Which of the three competing events settles the outcome promise, and
when.  Completion settles if the exit happens before both timers; else the
heartbeat if its deadline beats the hard timeout; else the hard timeout. -/
def settle (hb tm : Nat) (tr : AgentTrace) : RunOutcome × Nat :=
  match tr.exit with
  | some (e, code) =>
    if e ≤ hbFire hb 0 (tr.chunks.map (fun c => c.1)) ∧ e ≤ tm then
      (RunOutcome.completed code (allOutput tr), e)
    else if hbFire hb 0 (tr.chunks.map (fun c => c.1)) ≤ tm then
      (RunOutcome.heartbeat
        (outputBefore tr.chunks (hbFire hb 0 (tr.chunks.map (fun c => c.1)))),
        hbFire hb 0 (tr.chunks.map (fun c => c.1)))
    else (RunOutcome.timeout, tm)
  | none =>
    if hbFire hb 0 (tr.chunks.map (fun c => c.1)) ≤ tm then
      (RunOutcome.heartbeat
        (outputBefore tr.chunks (hbFire hb 0 (tr.chunks.map (fun c => c.1)))),
        hbFire hb 0 (tr.chunks.map (fun c => c.1)))
    else (RunOutcome.timeout, tm)

structure AgentResult where
  success : Bool
  output : String
  parsed : Option ParsedAgentOutput
  durationMs : Nat
  deriving Repr, DecidableEq

/-- `runAgent`: maps the settled outcome to the returned `AgentResult` —
heartbeat yields `success=false` with the collected output; completion
yields `success = (exitCode == 0)` with the parsed output; the hard timeout
rejects (an error, no result). -/
def runAgent (jparse : String → Option Json) (hb tm : Nat) (tr : AgentTrace) :
    Except String AgentResult :=
  match settle hb tm tr with
  | (RunOutcome.heartbeat out, t) => Except.ok ⟨false, out, none, t⟩
  | (RunOutcome.completed code out, t) =>
    Except.ok ⟨code == 0, out, some (parseAgentOutput (jparse out) out), t⟩
  | (RunOutcome.timeout, _) => Except.error "exceeded hard timeout"

/-! ### Event dispatch (src/dispatch.ts)

`createDispatch` closes over the handler list and the queue map; the
returned function finds the first matching handler and pushes the event on
that handler's queue.  The queue map is modelled as a function from queue
name to queue contents (push appends at the tail); the boolean result
records whether the unhandled-event warning was logged (event dropped). -/

structure Handler (E : Type) where
  matchesEvent : E → Bool
  queue : String

def dispatch {E : Type} (handlers : List (Handler E)) (queues : String → List E)
    (e : E) : (String → List E) × Bool :=
  match handlers.find? (fun h => h.matchesEvent e) with
  | none => (queues, true)
  | some h => (fun q => if q = h.queue then queues q ++ [e] else queues q, false)

/-! ### Branch issue-key extraction (src/webhooks/parsers/github.ts)

`extractIssueKey` matches `(?:feature|fix|chore)\/([A-Z]+-\d+)` with the
`i` flag against the branch name and upper-cases the capture, returning
null on no match.  The regex is unanchored: the engine scans positions left
to right; at a position it tries the three keywords (no keyword is a prefix
of another, and where one keyword matches no other can, so a combined
keyword-plus-slash test is equivalent to the engine's backtracking), then
the capture `[A-Z]+-\d+` — under the `i` flag the class `[A-Z]` is the
ASCII letters of either case.  A greedy letter run can only be followed by
`-` and digits, neither of which is a letter, so the engine's match at a
position is exactly the maximal-run decomposition implemented here. -/

/-- Case-insensitive literal match: strips a keyword (given in lower case)
off the head of the input. -/
def stripKeyword : List Char → List Char → Option (List Char)
  | [], cs => some cs
  | _ :: _, [] => none
  | k :: ks, c :: cs => if c.toLower = k then stripKeyword ks cs else none

/-- The capture `([A-Z]+-\d+)` with the `i` flag, at the head of the
input; returns the captured characters.  The letter run and the digit run
are the greedy maximal runs, which is what the engine commits to, because
no shorter letter run can be followed by the literal `-`. -/
def matchKey (cs : List Char) : Option (List Char) :=
  if (cs.takeWhile (fun c => c.isAlpha)).isEmpty then none
  else if (cs.dropWhile (fun c => c.isAlpha)).head? = some '-' then
    if ((cs.dropWhile (fun c => c.isAlpha)).tail.takeWhile
        (fun c => c.isDigit)).isEmpty then none
    else some (cs.takeWhile (fun c => c.isAlpha) ++
      '-' :: (cs.dropWhile (fun c => c.isAlpha)).tail.takeWhile
        (fun c => c.isDigit))
  else none

/-- One attempt of the whole pattern at the current position. -/
def tryKeyAt (cs : List Char) : Option (List Char) :=
  match stripKeyword "feature/".data cs with
  | some rest => matchKey rest
  | none =>
    match stripKeyword "fix/".data cs with
    | some rest => matchKey rest
    | none =>
      match stripKeyword "chore/".data cs with
      | some rest => matchKey rest
      | none => none

/-- The unanchored scan: first position where the pattern matches. -/
def scanKey : List Char → Option (List Char)
  | [] => none
  | c :: cs =>
    match tryKeyAt (c :: cs) with
    | some k => some k
    | none => scanKey cs

/-- `GitHubEventParser.extractIssueKey`: the upper-cased capture, or null. -/
def extractIssueKey (branch : String) : Option String :=
  (scanKey branch.data).map (fun k => String.mk (k.map Char.toUpper))

/-- A case-variant of one of the three branch keywords (slash included). -/
def KeywordChars (kw : List Char) : Prop :=
  kw.map Char.toLower = "feature/".data ∨
  kw.map Char.toLower = "fix/".data ∨
  kw.map Char.toLower = "chore/".data

/-- The branch contains a match of
`(?:feature|fix|chore)\/([A-Z]+-\d+)` (case-insensitive) somewhere. -/
def HasKeyMatch (cs : List Char) : Prop :=
  ∃ pre kw letters digits rest,
    cs = pre ++ kw ++ letters ++ '-' :: digits ++ rest ∧
    KeywordChars kw ∧
    letters ≠ [] ∧ (∀ c ∈ letters, c.isAlpha = true) ∧
    digits ≠ [] ∧ (∀ c ∈ digits, c.isDigit = true)

/-! ### Migration runner (src/store/migrator.ts)

`runMigrations` lists the directory, keeps the `.sql` entries sorted, and
for each file not yet recorded in `_migrations` runs
`BEGIN; exec(sql); INSERT INTO _migrations; COMMIT`, rolling back and
rethrowing on failure.  The `_migrations` table is the `applied` list (in
insertion order), the rest of the database is an abstract `Db`, and one
file's SQL is an abstract partial effect `applySql : String → Db → Option
Db` (`none` = the exec threw, so the transaction rolled back).  A run
returns the final state, the list of files newly applied by this run, and
the name of the failing file when the run rethrew. -/

structure MigrationState (Db : Type) where
  applied : List String
  db : Db
  deriving Repr, DecidableEq

structure MigrationRun (Db : Type) where
  state : MigrationState Db
  newlyApplied : List String
  failed : Option String
  deriving Repr, DecidableEq

def runFiles {Db : Type} (applySql : String → Db → Option Db) :
    List String → MigrationState Db → MigrationRun Db
  | [], st => ⟨st, [], none⟩
  | f :: fs, st =>
    if f ∈ st.applied then runFiles applySql fs st
    else
      match applySql f st.db with
      | none => ⟨st, [], some f⟩
      | some db2 =>
        let r := runFiles applySql fs ⟨st.applied ++ [f], db2⟩
        ⟨r.state, f :: r.newlyApplied, r.failed⟩

/-- Lexicographic order on code points, the order JS `Array.sort()` applies
to strings (code units and code points agree on the names involved). -/
def charListLe : List Char → List Char → Bool
  | [], _ => true
  | _ :: _, [] => false
  | x :: xs, y :: ys =>
    if x.toNat < y.toNat then true
    else if y.toNat < x.toNat then false
    else charListLe xs ys

/-- `entries.filter(f => f.endsWith(".sql")).sort()` — the suffix test and
sort are over the strings' characters (the sorting algorithm itself is
irrelevant to the properties proved here). -/
def sqlFiles (entries : List String) : List String :=
  (entries.filter (fun f => ".sql".data.isSuffixOf f.data)).insertionSort
    (fun a b => charListLe a.data b.data = true)

/-- `Migrator.runMigrations` over a directory listing. -/
def runMigrations {Db : Type} (applySql : String → Db → Option Db)
    (entries : List String) (st : MigrationState Db) : MigrationRun Db :=
  runFiles applySql (sqlFiles entries) st

/-! ### Document-store polling bridge (src/polling/confluence.ts)

Each tick records its start timestamp, lists the pages in review, emits a
`page:approved` event per approved page and one `page:comment` event per
comment newer than the previous tick's start (the client filter
`createdAt > since` is strict, src/integrations/confluence.ts), and — on
success and failure alike — sets `lastPollTime` to this tick's start.
Timestamps are `Nat` (ISO-8601 UTC strings compare like their instants);
`designId` carries the result of `extractDesignId` on the page title; a
tick whose body threw (`pages = none`) emits nothing. -/

structure CComment where
  id : String
  body : String
  author : String
  createdAt : Nat
  deriving Repr, DecidableEq

structure PageSnap where
  pageId : String
  designId : Option String
  state : Option String
  comments : List CComment
  deriving Repr, DecidableEq

structure TickData where
  start : Nat
  pages : Option (List PageSnap)
  deriving Repr, DecidableEq

def tick0 : TickData := ⟨0, none⟩

inductive PollEvent where
  | approved (pageId designId : String)
  | comment (pageId designId : String) (c : CComment)
  deriving Repr, DecidableEq

/-- `ConfluenceRestClient.getNewComments`: strict `created-at > since`. -/
def getNewComments (since : Nat) (cs : List CComment) : List CComment :=
  cs.filter (fun c => since < c.createdAt)

/-- One `poll()` body with watermark `since`. -/
def pollTick (since : Nat) (t : TickData) : List PollEvent :=
  match t.pages with
  | none => []
  | some pages =>
    pages.flatMap (fun p =>
      match p.designId with
      | none => []
      | some d =>
        (if p.state == some "approved" then [PollEvent.approved p.pageId d]
         else []) ++
        (getNewComments since p.comments).map
          (fun c => PollEvent.comment p.pageId d c))

/-- The event lists of successive ticks: after every tick, failed or not,
the watermark becomes that tick's start. -/
def pollTrace (since : Nat) : List TickData → List (List PollEvent)
  | [] => []
  | t :: ts => pollTick since t :: pollTrace t.start ts

end Devloop

namespace Devloop

/-! ### Theorems -/

/-- `List.find?` returns the element at the least index satisfying the
predicate. -/
theorem find?_eq_get_of_first {E : Type} (p : E → Bool) (l : List E) (i : Nat)
    (hi : i < l.length) (hp : p (l.get ⟨i, hi⟩) = true)
    (hmin : ∀ j (hj : j < l.length), j < i → p (l.get ⟨j, hj⟩) = false) :
    l.find? p = some (l.get ⟨i, hi⟩) := by
  induction l generalizing i with
  | nil => exact absurd hi (Nat.not_lt_zero i)
  | cons a l ih =>
    cases i with
    | zero =>
      simp only [List.get] at hp
      simp [List.find?_cons_of_pos, hp]
    | succ n =>
      have ha : p a = false := by
        have := hmin 0 (Nat.succ_pos _) (Nat.succ_pos n)
        simpa using this
      rw [List.find?_cons_of_neg _ (by simp [ha])]
      exact ih n (Nat.lt_of_succ_lt_succ hi) hp
        (fun j hj hji => hmin (j + 1) (Nat.succ_lt_succ hj) (Nat.succ_lt_succ hji))

/-- Every element of a `takeWhile` satisfies the predicate. -/
theorem all_takeWhile (p : Char → Bool) (l : List Char) :
    ∀ c ∈ l.takeWhile p, p c = true := by
  induction l with
  | nil => intro c hc; simp at hc
  | cons a l ih =>
    intro c hc
    by_cases hp : p a
    · rw [List.takeWhile_cons_of_pos hp] at hc
      rcases List.mem_cons.mp hc with rfl | hc
      · exact hp
      · exact ih c hc
    · rw [List.takeWhile_cons_of_neg hp] at hc
      simp at hc

/-- `takeWhile` runs through a block that satisfies the predicate. -/
theorem takeWhile_all_append (p : Char → Bool) (l1 l2 : List Char)
    (h : ∀ c ∈ l1, p c = true) :
    (l1 ++ l2).takeWhile p = l1 ++ l2.takeWhile p := by
  induction l1 with
  | nil => simp
  | cons a l ih =>
    have hpa : p a = true := h a (List.mem_cons_self a l)
    simp only [List.cons_append, List.takeWhile_cons_of_pos hpa]
    rw [ih (fun c hc => h c (List.mem_cons_of_mem a hc))]

/-- `dropWhile` drops a whole block that satisfies the predicate. -/
theorem dropWhile_all_append (p : Char → Bool) (l1 l2 : List Char)
    (h : ∀ c ∈ l1, p c = true) :
    (l1 ++ l2).dropWhile p = l2.dropWhile p := by
  induction l1 with
  | nil => simp
  | cons a l ih =>
    have hpa : p a = true := h a (List.mem_cons_self a l)
    simp only [List.cons_append, List.dropWhile_cons_of_pos hpa]
    exact ih (fun c hc => h c (List.mem_cons_of_mem a hc))

/-- `stripKeyword` succeeds exactly on inputs starting with a case-variant
of the keyword, and returns what follows it. -/
theorem stripKeyword_eq_some_iff (ks : List Char) :
    ∀ (cs rest : List Char), stripKeyword ks cs = some rest ↔
      ∃ kw, kw.map Char.toLower = ks ∧ cs = kw ++ rest := by
  induction ks with
  | nil =>
    intro cs rest
    simp only [stripKeyword, Option.some.injEq]
    constructor
    · rintro rfl
      exact ⟨[], rfl, rfl⟩
    · rintro ⟨kw, hmap, rfl⟩
      rw [List.map_eq_nil_iff] at hmap
      rw [hmap]
      rfl
  | cons k ks ih =>
    intro cs rest
    cases cs with
    | nil =>
      simp only [stripKeyword]
      constructor
      · intro h; cases h
      · rintro ⟨kw, hmap, hcs⟩
        rcases List.append_eq_nil.mp hcs.symm with ⟨rfl, rfl⟩
        simp at hmap
    | cons c cs2 =>
      simp only [stripKeyword]
      by_cases hck : c.toLower = k
      · rw [if_pos hck, ih cs2 rest]
        constructor
        · rintro ⟨kw, hmap, rfl⟩
          exact ⟨c :: kw, by simp [hck, hmap], rfl⟩
        · rintro ⟨kw, hmap, hcs⟩
          cases kw with
          | nil => simp at hmap
          | cons a kw2 =>
            rw [List.cons_append] at hcs
            injection hcs with h1 h2
            simp only [List.map_cons, List.cons.injEq] at hmap
            exact ⟨kw2, hmap.2, h2⟩
      · rw [if_neg hck]
        constructor
        · intro h; cases h
        · rintro ⟨kw, hmap, hcs⟩
          cases kw with
          | nil => simp at hmap
          | cons a kw2 =>
            rw [List.cons_append] at hcs
            injection hcs with h1 h2
            simp only [List.map_cons, List.cons.injEq] at hmap
            exact absurd (h1 ▸ hmap.1) hck

/-- When two keywords both strip off the same input, the shorter is a
prefix of the longer. -/
theorem stripKeyword_agree : ∀ (ks1 ks2 cs r1 r2 : List Char),
    stripKeyword ks1 cs = some r1 → stripKeyword ks2 cs = some r2 →
    ks1.length ≤ ks2.length → ks1 = ks2.take ks1.length := by
  intro ks1
  induction ks1 with
  | nil => intro ks2 cs r1 r2 h1 h2 hlen; rfl
  | cons k ks ih =>
    intro ks2 cs r1 r2 h1 h2 hlen
    cases ks2 with
    | nil => simp at hlen
    | cons k2 ks2' =>
      cases cs with
      | nil => simp [stripKeyword] at h1
      | cons c cs2 =>
        simp only [stripKeyword] at h1 h2
        by_cases hc1 : c.toLower = k
        · rw [if_pos hc1] at h1
          by_cases hc2 : c.toLower = k2
          · rw [if_pos hc2] at h2
            have hrec := ih ks2' cs2 r1 r2 h1 h2 (by simpa using hlen)
            simp only [List.length_cons, List.take_succ_cons, List.cons.injEq]
            exact ⟨hc1 ▸ hc2, hrec⟩
          · rw [if_neg hc2] at h2; cases h2
        · rw [if_neg hc1] at h1; cases h1

/-- What a successful `matchKey` tells us about its input and capture. -/
theorem matchKey_eq_some_sound (cs k : List Char) (h : matchKey cs = some k) :
    ∃ letters digits rest2,
      cs = letters ++ '-' :: digits ++ rest2 ∧
      letters ≠ [] ∧ (∀ c ∈ letters, c.isAlpha = true) ∧
      digits ≠ [] ∧ (∀ c ∈ digits, c.isDigit = true) ∧
      k = letters ++ '-' :: digits := by
  unfold matchKey at h
  by_cases h1 : (cs.takeWhile (fun c => c.isAlpha)).isEmpty = true
  case pos => rw [if_pos h1] at h; cases h
  rw [if_neg h1] at h
  by_cases h2 : (cs.dropWhile (fun c => c.isAlpha)).head? = some '-'
  case neg => rw [if_neg h2] at h; cases h
  rw [if_pos h2] at h
  by_cases h3 : ((cs.dropWhile (fun c => c.isAlpha)).tail.takeWhile
      (fun c => c.isDigit)).isEmpty = true
  case pos => rw [if_pos h3] at h; cases h
  rw [if_neg h3] at h
  · injection h with h
    refine ⟨cs.takeWhile (fun c => c.isAlpha),
      (cs.dropWhile (fun c => c.isAlpha)).tail.takeWhile (fun c => c.isDigit),
      ((cs.dropWhile (fun c => c.isAlpha)).tail.dropWhile (fun c => c.isDigit)),
      ?_, ?_, ?_, ?_, ?_, h.symm⟩
    · cases hd : cs.dropWhile (fun c => c.isAlpha) with
      | nil => rw [hd] at h2; cases h2
      | cons a t =>
        rw [hd] at h2
        simp only [List.head?_cons, Option.some.injEq] at h2
        subst h2
        simp only [List.tail_cons]
        calc cs = cs.takeWhile (fun c => c.isAlpha) ++
              cs.dropWhile (fun c => c.isAlpha) :=
            (List.takeWhile_append_dropWhile (fun c => c.isAlpha) cs).symm
          _ = cs.takeWhile (fun c => c.isAlpha) ++ ('-' :: t) := by rw [hd]
          _ = (cs.takeWhile (fun c => c.isAlpha) ++
              ('-' :: t.takeWhile (fun c => c.isDigit))) ++
              t.dropWhile (fun c => c.isDigit) := by
            simp [List.append_assoc, List.cons_append,
              List.takeWhile_append_dropWhile]
    · simpa [List.isEmpty_iff] using h1
    · exact all_takeWhile _ cs
    · simpa [List.isEmpty_iff] using h3
    · exact all_takeWhile _ _

/-- `matchKey` succeeds on any input that starts with a nonempty letter
run, a dash and a nonempty digit run. -/
theorem matchKey_append_isSome (letters digits rest : List Char)
    (hl : letters ≠ []) (hla : ∀ c ∈ letters, c.isAlpha = true)
    (hd : digits ≠ []) (hdd : ∀ c ∈ digits, c.isDigit = true) :
    ∃ k, matchKey (letters ++ '-' :: (digits ++ rest)) = some k := by
  have ht : (letters ++ '-' :: (digits ++ rest)).takeWhile (fun c => c.isAlpha)
      = letters := by
    rw [takeWhile_all_append (fun c => c.isAlpha) letters ('-' :: (digits ++ rest))
        hla,
      List.takeWhile_cons_of_neg (by decide), List.append_nil]
  have hdr : (letters ++ '-' :: (digits ++ rest)).dropWhile (fun c => c.isAlpha)
      = '-' :: (digits ++ rest) := by
    rw [dropWhile_all_append (fun c => c.isAlpha) letters ('-' :: (digits ++ rest))
        hla,
      List.dropWhile_cons_of_neg (by decide)]
  refine ⟨letters ++ '-' :: (digits ++ rest.takeWhile (fun c => c.isDigit)), ?_⟩
  unfold matchKey
  rw [ht, hdr, List.head?_cons, List.tail_cons,
    takeWhile_all_append (fun c => c.isDigit) digits rest hdd,
    if_neg (by simpa [List.isEmpty_iff] using hl), if_pos rfl,
    if_neg (by simp [List.isEmpty_iff, List.append_eq_nil, hd])]

/-- What a successful `tryKeyAt` tells us. -/
theorem tryKeyAt_eq_some_sound (cs k : List Char) (h : tryKeyAt cs = some k) :
    ∃ kw rest, KeywordChars kw ∧ cs = kw ++ rest ∧ matchKey rest = some k := by
  unfold tryKeyAt at h
  cases h1 : stripKeyword "feature/".data cs with
  | some rest =>
    rw [h1] at h
    obtain ⟨kw, hm, hcs⟩ := (stripKeyword_eq_some_iff _ _ _).1 h1
    exact ⟨kw, rest, Or.inl hm, hcs, h⟩
  | none =>
    rw [h1] at h
    cases h2 : stripKeyword "fix/".data cs with
    | some rest =>
      rw [h2] at h
      obtain ⟨kw, hm, hcs⟩ := (stripKeyword_eq_some_iff _ _ _).1 h2
      exact ⟨kw, rest, Or.inr (Or.inl hm), hcs, h⟩
    | none =>
      rw [h2] at h
      cases h3 : stripKeyword "chore/".data cs with
      | some rest =>
        rw [h3] at h
        obtain ⟨kw, hm, hcs⟩ := (stripKeyword_eq_some_iff _ _ _).1 h3
        exact ⟨kw, rest, Or.inr (Or.inr hm), hcs, h⟩
      | none =>
        rw [h3] at h
        cases h

/-- `tryKeyAt` succeeds wherever a keyword is followed by a key shape. -/
theorem tryKeyAt_append_isSome (kw letters digits rest : List Char)
    (hkw : KeywordChars kw) (hl : letters ≠ [])
    (hla : ∀ c ∈ letters, c.isAlpha = true)
    (hd : digits ≠ []) (hdd : ∀ c ∈ digits, c.isDigit = true) :
    ∃ k, tryKeyAt (kw ++ (letters ++ '-' :: (digits ++ rest))) = some k := by
  obtain ⟨k0, hmk⟩ := matchKey_append_isSome letters digits rest hl hla hd hdd
  rcases hkw with hk | hk | hk
  · have hs : stripKeyword "feature/".data
        (kw ++ (letters ++ '-' :: (digits ++ rest))) =
        some (letters ++ '-' :: (digits ++ rest)) :=
      (stripKeyword_eq_some_iff _ _ _).2 ⟨kw, hk, rfl⟩
    refine ⟨k0, ?_⟩
    unfold tryKeyAt
    rw [hs]
    exact hmk
  · have hs : stripKeyword "fix/".data
        (kw ++ (letters ++ '-' :: (digits ++ rest))) =
        some (letters ++ '-' :: (digits ++ rest)) :=
      (stripKeyword_eq_some_iff _ _ _).2 ⟨kw, hk, rfl⟩
    have hfeat : stripKeyword "feature/".data
        (kw ++ (letters ++ '-' :: (digits ++ rest))) = none := by
      cases hf : stripKeyword "feature/".data
          (kw ++ (letters ++ '-' :: (digits ++ rest))) with
      | none => rfl
      | some r =>
        have := stripKeyword_agree "fix/".data "feature/".data _ _ _ hs hf
          (by decide)
        exact absurd this (by decide)
    refine ⟨k0, ?_⟩
    unfold tryKeyAt
    rw [hfeat, hs]
    exact hmk
  · have hs : stripKeyword "chore/".data
        (kw ++ (letters ++ '-' :: (digits ++ rest))) =
        some (letters ++ '-' :: (digits ++ rest)) :=
      (stripKeyword_eq_some_iff _ _ _).2 ⟨kw, hk, rfl⟩
    have hfeat : stripKeyword "feature/".data
        (kw ++ (letters ++ '-' :: (digits ++ rest))) = none := by
      cases hf : stripKeyword "feature/".data
          (kw ++ (letters ++ '-' :: (digits ++ rest))) with
      | none => rfl
      | some r =>
        have := stripKeyword_agree "chore/".data "feature/".data _ _ _ hs hf
          (by decide)
        exact absurd this (by decide)
    have hfix : stripKeyword "fix/".data
        (kw ++ (letters ++ '-' :: (digits ++ rest))) = none := by
      cases hf : stripKeyword "fix/".data
          (kw ++ (letters ++ '-' :: (digits ++ rest))) with
      | none => rfl
      | some r =>
        have := stripKeyword_agree "fix/".data "chore/".data _ _ _ hf hs
          (by decide)
        exact absurd this (by decide)
    refine ⟨k0, ?_⟩
    unfold tryKeyAt
    rw [hfeat, hfix, hs]
    exact hmk

/-- A successful scan is a successful pattern attempt at some position. -/
theorem scanKey_eq_some_sound : ∀ (cs k : List Char), scanKey cs = some k →
    ∃ pre suf, cs = pre ++ suf ∧ tryKeyAt suf = some k := by
  intro cs
  induction cs with
  | nil => intro k h; simp [scanKey] at h
  | cons c cs ih =>
    intro k h
    unfold scanKey at h
    cases ht : tryKeyAt (c :: cs) with
    | some k2 =>
      rw [ht] at h
      injection h with h
      exact ⟨[], c :: cs, rfl, h ▸ ht⟩
    | none =>
      rw [ht] at h
      obtain ⟨pre, suf, hcs, hsuf⟩ := ih k h
      exact ⟨c :: pre, suf, by rw [List.cons_append, hcs], hsuf⟩

/-- The scan succeeds whenever some position admits a pattern match. -/
theorem scanKey_isSome_of_match : ∀ (pre rest0 : List Char),
    (∃ k, tryKeyAt rest0 = some k) → rest0 ≠ [] →
    ∃ k, scanKey (pre ++ rest0) = some k := by
  intro pre
  induction pre with
  | nil =>
    intro rest0 hk hne
    cases rest0 with
    | nil => exact absurd rfl hne
    | cons r rs =>
      obtain ⟨k, hk⟩ := hk
      refine ⟨k, ?_⟩
      rw [List.nil_append]
      unfold scanKey
      rw [hk]
  | cons p pre ih =>
    intro rest0 hk hne
    rw [List.cons_append]
    cases ht : tryKeyAt (p :: (pre ++ rest0)) with
    | some k2 =>
      refine ⟨k2, ?_⟩
      unfold scanKey
      rw [ht]
    | none =>
      obtain ⟨k, hk⟩ := ih rest0 hk hne
      refine ⟨k, ?_⟩
      unfold scanKey
      rw [ht, hk]

/-- The scan succeeds on any branch containing a key pattern. -/
theorem scanKey_isSome_of_has (cs : List Char) (h : HasKeyMatch cs) :
    ∃ k, scanKey cs = some k := by
  obtain ⟨pre, kw, letters, digits, rest, hcs, hkw, hl, hla, hd, hdd⟩ := h
  obtain ⟨k, hk⟩ := tryKeyAt_append_isSome kw letters digits rest hkw hl hla hd hdd
  have hkwne : kw ≠ [] := by
    rcases hkw with hh | hh | hh <;>
      · intro he
        subst he
        simp only [List.map_nil] at hh
        exact absurd hh.symm (by decide)
  have hne : kw ++ (letters ++ '-' :: (digits ++ rest)) ≠ [] := by
    simp [List.append_eq_nil, hkwne]
  have hcs2 : cs = pre ++ (kw ++ (letters ++ '-' :: (digits ++ rest))) := by
    rw [hcs]
    simp [List.append_assoc, List.cons_append]
  rw [hcs2]
  exact scanKey_isSome_of_match pre _ ⟨k, hk⟩ hne

/-- Everything a successful scan guarantees: the position decomposition,
the constraints on the parts, and the raw capture. -/
theorem scanKey_some_decomp (cs raw : List Char) (h : scanKey cs = some raw) :
    ∃ pre kw letters digits rest2,
      cs = pre ++ kw ++ letters ++ '-' :: digits ++ rest2 ∧
      KeywordChars kw ∧ letters ≠ [] ∧ (∀ c ∈ letters, c.isAlpha = true) ∧
      digits ≠ [] ∧ (∀ c ∈ digits, c.isDigit = true) ∧
      raw = letters ++ '-' :: digits := by
  obtain ⟨pre, suf, hcs, hsuf⟩ := scanKey_eq_some_sound cs raw h
  obtain ⟨kw, rest0, hkw, hsuf2, hmk⟩ := tryKeyAt_eq_some_sound suf raw hsuf
  obtain ⟨letters, digits, rest2, hrest0, hl, hla, hd, hdd, hraw⟩ :=
    matchKey_eq_some_sound rest0 raw hmk
  refine ⟨pre, kw, letters, digits, rest2, ?_, hkw, hl, hla, hd, hdd, hraw⟩
  rw [hcs, hsuf2, hrest0]
  simp [List.append_assoc, List.cons_append]

/-- C7: `extractIssueKey` extracts the issue key of a branch matching
`(feature|fix|chore)/<KEY>-<N>-...` case-insensitively, normalised to upper
case, and returns null exactly when the branch contains no such pattern:
the three literal examples of the spec, the characterisation of the null
result, and the shape and upper-casing of every non-null result. -/
theorem extractIssueKey_spec :
    extractIssueKey "feature/tos-40-payments" = some "TOS-40" ∧
    extractIssueKey "fix/TOS-99-bug" = some "TOS-99" ∧
    extractIssueKey "main" = none ∧
    (∀ b : String, extractIssueKey b = none ↔ ¬ HasKeyMatch b.data) ∧
    (∀ (b k : String), extractIssueKey b = some k →
      ∃ pre kw letters digits rest2,
        b.data = pre ++ kw ++ letters ++ '-' :: digits ++ rest2 ∧
        KeywordChars kw ∧
        letters ≠ [] ∧ (∀ c ∈ letters, c.isAlpha = true) ∧
        digits ≠ [] ∧ (∀ c ∈ digits, c.isDigit = true) ∧
        k.data = (letters ++ '-' :: digits).map Char.toUpper) := by
  refine ⟨by decide, by decide, by decide, ?_, ?_⟩
  · intro b
    constructor
    · intro h hmatch
      obtain ⟨k2, hk2⟩ := scanKey_isSome_of_has b.data hmatch
      unfold extractIssueKey at h
      rw [hk2] at h
      cases h
    · intro hnot
      unfold extractIssueKey
      cases hs : scanKey b.data with
      | none => rfl
      | some raw =>
        obtain ⟨pre, kw, letters, digits, rest2, hcs, hkw, hl, hla, hd, hdd, -⟩ :=
          scanKey_some_decomp b.data raw hs
        exact absurd ⟨pre, kw, letters, digits, rest2, hcs, hkw, hl, hla, hd, hdd⟩
          hnot
  · intro b k h
    unfold extractIssueKey at h
    cases hs : scanKey b.data with
    | none => rw [hs] at h; cases h
    | some raw =>
      rw [hs] at h
      obtain ⟨pre, kw, letters, digits, rest2, hcs, hkw, hl, hla, hd, hdd, hraw⟩ :=
        scanKey_some_decomp b.data raw hs
      refine ⟨pre, kw, letters, digits, rest2, hcs, hkw, hl, hla, hd, hdd, ?_⟩
      cases h
      rw [hraw]

/-- Witness for C7: `main` contains no key pattern (via the null
characterisation), and the positive characterisation applied at
`feature/tos-40-payments` exhibits the decomposition behind `TOS-40`. -/
theorem extractIssueKey_spec_witness :
    ¬ HasKeyMatch "main".data ∧
    (∃ pre kw letters digits rest2,
      ("feature/tos-40-payments" : String).data =
        pre ++ kw ++ letters ++ '-' :: digits ++ rest2 ∧
      KeywordChars kw ∧
      letters ≠ [] ∧ (∀ c ∈ letters, c.isAlpha = true) ∧
      digits ≠ [] ∧ (∀ c ∈ digits, c.isDigit = true) ∧
      ("TOS-40" : String).data = (letters ++ '-' :: digits).map Char.toUpper) := by
  constructor
  · exact (extractIssueKey_spec.2.2.2.1 "main").1 (by decide)
  · exact extractIssueKey_spec.2.2.2.2 "feature/tos-40-payments" "TOS-40" (by decide)

/-- A migration run never removes rows from `_migrations`. -/
theorem runFiles_applied_mono {Db : Type} (applySql : String → Db → Option Db)
    (fs : List String) (st : MigrationState Db) (x : String)
    (hx : x ∈ st.applied) : x ∈ (runFiles applySql fs st).state.applied := by
  induction fs generalizing st with
  | nil => exact hx
  | cons f fs ih =>
    by_cases hf : f ∈ st.applied
    · simpa [runFiles, hf] using ih st hx
    · cases ha : applySql f st.db with
      | none => simpa [runFiles, hf, ha] using hx
      | some db2 =>
        have := ih ⟨st.applied ++ [f], db2⟩ (by simp [hx])
        simpa [runFiles, hf, ha] using this

/-- After a run that did not rethrow, every listed file is recorded in
`_migrations`. -/
theorem runFiles_success_covers {Db : Type} (applySql : String → Db → Option Db)
    (fs : List String) (st : MigrationState Db)
    (h : (runFiles applySql fs st).failed = none) :
    ∀ f ∈ fs, f ∈ (runFiles applySql fs st).state.applied := by
  induction fs generalizing st with
  | nil => intro f hf; exact absurd hf (List.not_mem_nil f)
  | cons g fs ih =>
    intro f hf
    by_cases hg : g ∈ st.applied
    · rw [List.mem_cons] at hf
      rcases hf with rfl | hf
      · simpa [runFiles, hg] using runFiles_applied_mono applySql fs st f hg
      · have h2 : (runFiles applySql fs st).failed = none := by
          simpa [runFiles, hg] using h
        simpa [runFiles, hg] using ih st h2 f hf
    · cases ha : applySql g st.db with
      | none => simp [runFiles, hg, ha] at h
      | some db2 =>
        have h2 : (runFiles applySql fs ⟨st.applied ++ [g], db2⟩).failed = none := by
          simpa [runFiles, hg, ha] using h
        rw [List.mem_cons] at hf
        rcases hf with rfl | hf
        · have : f ∈ (⟨st.applied ++ [f], db2⟩ : MigrationState Db).applied := by simp
          simpa [runFiles, hg, ha] using
            runFiles_applied_mono applySql fs ⟨st.applied ++ [f], db2⟩ f this
        · simpa [runFiles, hg, ha] using ih ⟨st.applied ++ [g], db2⟩ h2 f hf

/-- A run over files that are all recorded already is a no-op. -/
theorem runFiles_all_applied {Db : Type} (applySql : String → Db → Option Db)
    (fs : List String) (st : MigrationState Db)
    (h : ∀ f ∈ fs, f ∈ st.applied) :
    runFiles applySql fs st = ⟨st, [], none⟩ := by
  induction fs with
  | nil => rfl
  | cons f fs ih =>
    have hf : f ∈ st.applied := h f (List.mem_cons_self f fs)
    rw [show runFiles applySql (f :: fs) st = runFiles applySql fs st by
      simp [runFiles, hf]]
    exact ih (fun g hg => h g (List.mem_cons_of_mem f hg))

/-- C8: running `runMigrations` a second time over the same directory is a
no-op — after a run that did not rethrow, a second run applies no file and
leaves the `_migrations` table and database unchanged; and when a file's SQL
fails, the transaction rolls back: the file is neither applied to the
database nor recorded, and the error is rethrown. -/
theorem runMigrations_idempotent {Db : Type} :
    (∀ (applySql : String → Db → Option Db) (entries : List String)
        (st : MigrationState Db),
      (runMigrations applySql entries st).failed = none →
      runMigrations applySql entries (runMigrations applySql entries st).state =
        ⟨(runMigrations applySql entries st).state, [], none⟩) ∧
    (∀ (applySql : String → Db → Option Db) (f : String) (fs : List String)
        (st : MigrationState Db),
      f ∉ st.applied → applySql f st.db = none →
      runFiles applySql (f :: fs) st = ⟨st, [], some f⟩) := by
  constructor
  · intro applySql entries st h
    exact runFiles_all_applied applySql (sqlFiles entries) _
      (runFiles_success_covers applySql (sqlFiles entries) st h)
  · intro applySql f fs st hf ha
    simp [runFiles, hf, ha]

/-- Witness for C8: a directory with two SQL files and one stray file —
after the first run, a second run is the identity and applies nothing; a
failing SQL file leaves the state untouched and reports the failing file. -/
theorem runMigrations_idempotent_witness :
    runMigrations (fun f (db : List String) => some (db ++ [f]))
        ["b.sql", "a.txt", "a.sql"]
        ((runMigrations (fun f (db : List String) => some (db ++ [f]))
          ["b.sql", "a.txt", "a.sql"] ⟨[], []⟩).state) =
      ⟨(runMigrations (fun f (db : List String) => some (db ++ [f]))
          ["b.sql", "a.txt", "a.sql"] ⟨[], []⟩).state, [], none⟩ ∧
    runFiles (fun _ (_ : List String) => none) ["a.sql"] ⟨[], ["seed"]⟩ =
      ⟨⟨[], ["seed"]⟩, [], some "a.sql"⟩ := by
  constructor
  · exact runMigrations_idempotent.1
      (fun f db => some (db ++ [f])) ["b.sql", "a.txt", "a.sql"] ⟨[], []⟩ (by decide)
  · exact runMigrations_idempotent.2
      (fun _ _ => none) "a.sql" [] ⟨[], ["seed"]⟩ (by decide) rfl

/-- The heartbeat deadline is never sooner than one full heartbeat period. -/
theorem hbFire_ge_hb (hb a : Nat) (cs : List Nat) : hb ≤ hbFire hb a cs := by
  induction cs generalizing a with
  | nil =>
    unfold hbFire
    omega
  | cons c cs ih =>
    unfold hbFire
    split
    · exact ih c
    · omega

/-- C2: when the heartbeat deadline (first `heartbeatMs` of stdout silence,
re-armed by every chunk) beats the hard timeout and the process exit, the
supervisor returns `success=false` with the output collected so far; when
`timeoutMs < heartbeatMs` and the process neither exits by `timeoutMs` —
even if it keeps emitting output — the supervisor raises the hard-timeout
error instead of returning a result; and exactly one of the completion,
heartbeat and timeout outcomes settles any run. -/
theorem runAgent_outcomes (jparse : String → Option Json) (hb tm : Nat)
    (tr : AgentTrace) :
    (hbFire hb 0 (tr.chunks.map (fun c => c.1)) < tm →
      (∀ e code, tr.exit = some (e, code) →
        hbFire hb 0 (tr.chunks.map (fun c => c.1)) < e) →
      runAgent jparse hb tm tr =
        Except.ok ⟨false,
          outputBefore tr.chunks (hbFire hb 0 (tr.chunks.map (fun c => c.1))),
          none, hbFire hb 0 (tr.chunks.map (fun c => c.1))⟩) ∧
    (tm < hb →
      (∀ e code, tr.exit = some (e, code) → tm < e) →
      runAgent jparse hb tm tr = Except.error "exceeded hard timeout") ∧
    (((∃ code out t, settle hb tm tr = (RunOutcome.completed code out, t)) ∨
      (∃ out t, settle hb tm tr = (RunOutcome.heartbeat out, t)) ∨
      (∃ t, settle hb tm tr = (RunOutcome.timeout, t))) ∧
     ¬((∃ code out t, settle hb tm tr = (RunOutcome.completed code out, t)) ∧
       (∃ out t, settle hb tm tr = (RunOutcome.heartbeat out, t))) ∧
     ¬((∃ code out t, settle hb tm tr = (RunOutcome.completed code out, t)) ∧
       (∃ t, settle hb tm tr = (RunOutcome.timeout, t))) ∧
     ¬((∃ out t, settle hb tm tr = (RunOutcome.heartbeat out, t)) ∧
       (∃ t, settle hb tm tr = (RunOutcome.timeout, t)))) := by
  refine ⟨?_, ?_, ?_, ?_, ?_, ?_⟩
  · intro h1 h2
    rcases hx : tr.exit with _ | ⟨e, code⟩
    · simp [runAgent, settle, hx, Nat.le_of_lt h1]
    · have he := h2 e code hx
      have hnot : ¬(e ≤ hbFire hb 0 (tr.chunks.map (fun c => c.1)) ∧ e ≤ tm) := by
        omega
      simp [runAgent, settle, hx, hnot, Nat.le_of_lt h1]
  · intro h1 h2
    have hge := hbFire_ge_hb hb 0 (tr.chunks.map (fun c => c.1))
    have hnotle : ¬(hbFire hb 0 (tr.chunks.map (fun c => c.1)) ≤ tm) := by omega
    rcases hx : tr.exit with _ | ⟨e, code⟩
    · simp [runAgent, settle, hx, hnotle]
    · have he := h2 e code hx
      have hnot : ¬(e ≤ hbFire hb 0 (tr.chunks.map (fun c => c.1)) ∧ e ≤ tm) := by
        omega
      simp [runAgent, settle, hx, hnot, hnotle]
  · rcases hs : settle hb tm tr with ⟨o, t⟩
    cases o with
    | completed code out => exact Or.inl ⟨code, out, t, rfl⟩
    | heartbeat out => exact Or.inr (Or.inl ⟨out, t, rfl⟩)
    | timeout => exact Or.inr (Or.inr ⟨t, rfl⟩)
  · rintro ⟨⟨c1, o1, t1, h1⟩, ⟨o2, t2, h2⟩⟩
    rw [h1] at h2
    simp at h2
  · rintro ⟨⟨c1, o1, t1, h1⟩, ⟨t2, h2⟩⟩
    rw [h1] at h2
    simp at h2
  · rintro ⟨⟨o1, t1, h1⟩, ⟨t2, h2⟩⟩
    rw [h1] at h2
    simp at h2

/-- Witness for C2: a silent process with `heartbeatMs=50 < timeoutMs=5000`
is killed by the heartbeat and yields `success=false` with empty output at
50 ms; with `timeoutMs=100 < heartbeatMs=10000` a process emitting chunks
at 30 ms and 60 ms still hits the hard-timeout error. -/
theorem runAgent_outcomes_witness :
    runAgent (fun _ => none) 50 5000 ⟨[], none⟩ =
      Except.ok ⟨false, "", none, 50⟩ ∧
    runAgent (fun _ => none) 10000 100 ⟨[(30, "a"), (60, "b")], none⟩ =
      Except.error "exceeded hard timeout" := by
  constructor
  · exact (runAgent_outcomes (fun _ => none) 50 5000 ⟨[], none⟩).1 (by decide)
      (fun e code h => by cases h)
  · exact (runAgent_outcomes (fun _ => none) 10000 100
      ⟨[(30, "a"), (60, "b")], none⟩).2.1 (by decide) (fun e code h => by cases h)

/-- Any `page:comment` event emitted by a tick has `created-at` strictly
greater than the watermark the tick ran with. -/
theorem comment_mem_pollTick (since : Nat) (t : TickData) (pid d : String)
    (c : CComment) (h : PollEvent.comment pid d c ∈ pollTick since t) :
    since < c.createdAt := by
  unfold pollTick at h
  cases hp : t.pages with
  | none => rw [hp] at h; simp at h
  | some pages =>
    rw [hp] at h
    simp only [List.mem_flatMap] at h
    obtain ⟨p, hpm, hin⟩ := h
    cases hd : p.designId with
    | none => rw [hd] at hin; simp at hin
    | some d2 =>
      rw [hd] at hin
      rw [List.mem_append] at hin
      rcases hin with hin | hin
      · split at hin <;> simp at hin
      · simp only [List.mem_map] at hin
        obtain ⟨c2, hc2, heq⟩ := hin
        cases heq
        simp only [getNewComments, List.mem_filter, decide_eq_true_eq] at hc2
        exact hc2.2

/-- The watermark a tick runs with is the previous tick's start timestamp,
whether or not the previous tick failed. -/
theorem pollTrace_getD_succ (s : Nat) (ts : List TickData) (j : Nat)
    (hj : j + 1 < ts.length) :
    (pollTrace s ts).getD (j + 1) [] =
      pollTick (ts.getD j tick0).start (ts.getD (j + 1) tick0) := by
  induction ts generalizing s j with
  | nil => simp at hj
  | cons t ts ih =>
    cases j with
    | zero =>
      cases ts with
      | nil => simp at hj
      | cons t2 ts2 => simp [pollTrace]
    | succ k =>
      have hk : k + 1 < ts.length := by
        simpa using Nat.lt_of_succ_lt_succ hj
      simpa [pollTrace] using ih t.start k hk

/-- C9: after every polling tick — a tick that threw included — the
`lastPollTime` watermark is that tick's start timestamp (so tick `j + 1`
filters against tick `j`'s start); consequently, when tick starts are
monotone and tick `i` failed, any comment created at or before tick `i`'s
start is never emitted as a `page:comment` event by any later tick. -/
theorem pollTrace_watermark (s : Nat) (ts : List TickData) :
    (∀ j, j + 1 < ts.length →
      (pollTrace s ts).getD (j + 1) [] =
        pollTick (ts.getD j tick0).start (ts.getD (j + 1) tick0)) ∧
    (∀ i j, i < j → j < ts.length →
      (∀ a b, a ≤ b → b < ts.length →
        (ts.getD a tick0).start ≤ (ts.getD b tick0).start) →
      (ts.getD i tick0).pages = none →
      ∀ pid d c, c.createdAt ≤ (ts.getD i tick0).start →
        PollEvent.comment pid d c ∉ (pollTrace s ts).getD j []) := by
  constructor
  · intro j hj
    exact pollTrace_getD_succ s ts j hj
  · intro i j hij hj hmono hfail pid d c hc hm
    cases j with
    | zero => exact absurd hij (Nat.not_lt_zero i)
    | succ k =>
      rw [pollTrace_getD_succ s ts k hj] at hm
      have h1 := comment_mem_pollTick _ _ _ _ _ hm
      have h2 : (ts.getD i tick0).start ≤ (ts.getD k tick0).start :=
        hmono i k (Nat.lt_succ_iff.mp hij) (Nat.lt_of_succ_lt hj)
      omega

/-- Witness for C9: tick 0 (start 100) failed; a comment created at 50 lies
in tick 0's window, and tick 1 (start 200, page in review with that
comment) does not emit it. -/
theorem pollTrace_watermark_witness :
    PollEvent.comment "p" "d" ⟨"c1", "hello", "alice", 50⟩ ∉
      (pollTrace 0 [⟨100, none⟩,
        ⟨200, some [⟨"p", some "d", none,
          [⟨"c1", "hello", "alice", 50⟩]⟩]⟩]).getD 1 [] := by
  exact (pollTrace_watermark 0 [⟨100, none⟩,
      ⟨200, some [⟨"p", some "d", none, [⟨"c1", "hello", "alice", 50⟩]⟩]⟩]).2
    0 1 (by decide) (by decide)
    (by
      intro a b hab hb
      simp only [List.length_cons, List.length_nil] at hb
      have hb2 : b = 0 ∨ b = 1 := by omega
      have ha2 : a = 0 ∨ a = 1 := by omega
      rcases hb2 with rfl | rfl <;> rcases ha2 with rfl | rfl <;> first
        | decide
        | omega)
    rfl "p" "d" ⟨"c1", "hello", "alice", 50⟩ (by decide)

/-- C1: for every PR number `p`, `checkReadyForHuman` returns `true` exactly
when the stored row for `p` exists and has `ci_status = "passing"` and
`review_status = "passing"`; in particular it returns `false` when no row
for `p` exists. -/
theorem checkReadyForHuman_spec (db : PRTable) (p : Nat) :
    (checkReadyForHuman db p = true ↔
      ∃ row, getPRRow db p = some row ∧
        row.ci_status = "passing" ∧ row.review_status = "passing") ∧
    (getPRRow db p = none → checkReadyForHuman db p = false) := by
  constructor
  · unfold checkReadyForHuman
    cases h : getPRRow db p with
    | none =>
        simp
    | some row =>
        simp only [Bool.and_eq_true, beq_iff_eq]
        constructor
        · rintro ⟨h1, h2⟩
          exact ⟨row, rfl, h1, h2⟩
        · rintro ⟨row2, hrow, h1, h2⟩
          cases hrow
          exact ⟨h1, h2⟩
  · intro h
    unfold checkReadyForHuman
    rw [h]

/-- Witness for C1: on the empty table, PR 5 has no row and the check is
`false`; on a concrete passing row it is `true`. -/
theorem checkReadyForHuman_spec_witness :
    checkReadyForHuman [] 5 = false ∧
    checkReadyForHuman [⟨7, "d1", "in_review", "passing", "passing"⟩] 7 = true := by
  refine ⟨(checkReadyForHuman_spec [] 5).2 rfl, ?_⟩
  exact (checkReadyForHuman_spec [⟨7, "d1", "in_review", "passing", "passing"⟩] 7).1.2
    ⟨⟨7, "d1", "in_review", "passing", "passing"⟩, rfl, rfl, rfl⟩

/-- C4: `checkAllSiblingsMerged d` is `true` exactly when the design has at
least one PR row and every one of them has stage `"merged"`; it is `false`
when the design has no PR rows. -/
theorem checkAllSiblingsMerged_spec (db : PRTable) (d : String) :
    (checkAllSiblingsMerged db d = true ↔
      rowsByDesign db d ≠ [] ∧ ∀ r ∈ rowsByDesign db d, r.stage = "merged") ∧
    (rowsByDesign db d = [] → checkAllSiblingsMerged db d = false) := by
  constructor
  · unfold checkAllSiblingsMerged
    cases h : rowsByDesign db d with
    | nil => simp
    | cons a l =>
        simp only [List.length_cons, List.all_eq_true, beq_iff_eq]
        constructor
        · intro hall
          refine ⟨by simp, ?_⟩
          simpa using hall
        · rintro ⟨-, hall⟩
          simpa using hall
  · intro h
    unfold checkAllSiblingsMerged
    rw [h]
    rfl

/-- Witness for C4: a design with no rows yields `false`; a design whose two
rows are both merged yields `true`. -/
theorem checkAllSiblingsMerged_spec_witness :
    checkAllSiblingsMerged [] "d0" = false ∧
    checkAllSiblingsMerged
      [⟨200, "d1", "merged", "passing", "passing"⟩,
       ⟨201, "d1", "merged", "passing", "passing"⟩] "d1" = true := by
  refine ⟨(checkAllSiblingsMerged_spec [] "d0").2 rfl, ?_⟩
  refine (checkAllSiblingsMerged_spec _ "d1").1.2 ⟨by decide, ?_⟩
  decide

/-- C5: the chat webhook verifier rejects with the replay-protection error
exactly when `|now − t·1000|` exceeds the 5-minute window, independently of
the signature comparison; a request at offset 0 s or exactly 300 s passes the
replay check (and verifies when the secret and signature are good), while an
offset of 301 s is rejected as a replay even when the signature would match. -/
theorem slackVerify_replay_spec :
    (∀ (now t : Int) (sig : String) (sec m : Bool),
      slackVerify now (some t) (some sig) sec m = Except.error VerifyError.replay ↔
        REPLAY_WINDOW_MS < |now - t * 1000|) ∧
    (∀ (t : Int) (sig : String),
      slackVerify (t * 1000) (some t) (some sig) true true = Except.ok ()) ∧
    (∀ (t : Int) (sig : String),
      slackVerify (t * 1000 + 300000) (some t) (some sig) true true = Except.ok ()) ∧
    (∀ (t : Int) (sig : String) (sec m : Bool),
      slackVerify (t * 1000 + 301000) (some t) (some sig) sec m =
        Except.error VerifyError.replay) := by
  refine ⟨?_, ?_, ?_, ?_⟩
  · intro now t sig sec m
    simp only [slackVerify]
    split_ifs with h1 h2 h3 <;> simp_all
  · intro t sig
    have h : t * 1000 - t * 1000 = (0 : Int) := by ring
    simp [slackVerify, h, REPLAY_WINDOW_MS]
  · intro t sig
    have h : t * 1000 + 300000 - t * 1000 = (300000 : Int) := by ring
    norm_num [slackVerify, h, REPLAY_WINDOW_MS]
  · intro t sig sec m
    have h : t * 1000 + 301000 - t * 1000 = (301000 : Int) := by ring
    norm_num [slackVerify, h, REPLAY_WINDOW_MS]

/-- C3: dispatch walks the registered handlers in order; the first handler
whose `matches` is `true` gets the event appended to its queue, every other
queue is unchanged and no warning is logged; when no handler matches, all
queues are unchanged and the warning flag is set (event dropped); and at
most one queue name ever has its contents changed by a dispatch. -/
theorem dispatch_spec {E : Type} (handlers : List (Handler E))
    (queues : String → List E) (e : E) :
    (∀ i (hi : i < handlers.length),
      (handlers.get ⟨i, hi⟩).matchesEvent e = true →
      (∀ j (hj : j < handlers.length), j < i →
        (handlers.get ⟨j, hj⟩).matchesEvent e = false) →
      dispatch handlers queues e =
        (fun q => if q = (handlers.get ⟨i, hi⟩).queue then queues q ++ [e]
                  else queues q, false)) ∧
    ((∀ h ∈ handlers, h.matchesEvent e = false) →
      dispatch handlers queues e = (queues, true)) ∧
    (∀ q1 q2, (dispatch handlers queues e).1 q1 ≠ queues q1 →
      (dispatch handlers queues e).1 q2 ≠ queues q2 → q1 = q2) := by
  refine ⟨?_, ?_, ?_⟩
  · intro i hi hp hmin
    unfold dispatch
    rw [find?_eq_get_of_first (fun h => h.matchesEvent e) handlers i hi hp
      (fun j hj hji => hmin j hj hji)]
  · intro hnone
    unfold dispatch
    rw [List.find?_eq_none.2 (fun x hx => by simp [hnone x hx])]
  · intro q1 q2 h1 h2
    unfold dispatch at h1 h2
    cases hf : handlers.find? (fun h => h.matchesEvent e) with
    | none =>
      rw [hf] at h1
      exact absurd rfl h1
    | some h =>
      rw [hf] at h1 h2
      simp only at h1 h2
      by_contra hne
      rcases Classical.em (q1 = h.queue) with hq1 | hq1
      · rcases Classical.em (q2 = h.queue) with hq2 | hq2
        · exact hne (hq1.trans hq2.symm)
        · simp [hq2] at h2
      · simp [hq1] at h1

/-- Witness for C3: with two handlers, the second (queue `"b"`) is the first
match for event `5`, so `5` lands on queue `"b"` only and no warning fires;
with no matching handler the queues are untouched and the warning fires. -/
theorem dispatch_spec_witness :
    dispatch [⟨fun n => n == 2, "a"⟩, ⟨fun _ => true, "b"⟩]
        (fun _ => ([] : List Nat)) 5 =
      (fun q => if q = "b" then ([] : List Nat) ++ [5] else [], false) ∧
    dispatch [⟨fun n => n == 2, "a"⟩] (fun _ => ([] : List Nat)) 5 =
      (fun _ => ([] : List Nat), true) := by
  constructor
  · exact (dispatch_spec [⟨fun n => n == 2, "a"⟩, ⟨fun _ => true, "b"⟩]
      (fun _ => ([] : List Nat)) 5).1 1 (by decide) rfl
      (by
        intro j hj hji
        interval_cases j
        rfl)
  · exact (dispatch_spec [⟨fun n => n == 2, "a"⟩] (fun _ => ([] : List Nat)) 5).2.1
      (by
        intro h hh
        simp at hh
        simp [hh])

/-- C10: a `check_suite` payload with conclusion `failure`, `timed_out` or
`success` whose `pull_requests` array is empty (or absent) or whose first
entry lacks a `number` still yields the corresponding `ci:failed` /
`ci:passed` event with `prNumber = 0`, and the branch defaults to `""` when
`head_branch` is absent. -/
theorem parseCheckSuite_defaults (body : CheckSuiteBody) (suite : CheckSuite)
    (hsuite : body.check_suite = some suite)
    (hpr : suite.pull_requests.getD [] = [] ∨
      ∃ pr rest, suite.pull_requests = some (pr :: rest) ∧ pr.number = none) :
    ((suite.conclusion = some "failure" ∨ suite.conclusion = some "timed_out") →
      parseCheckSuite body =
        [SCEvent.ciFailed 0 (suite.head_branch.getD "") (extractCheckRunLogs body)]) ∧
    (suite.conclusion = some "success" →
      parseCheckSuite body = [SCEvent.ciPassed 0 (suite.head_branch.getD "")]) ∧
    (suite.head_branch = none → suite.head_branch.getD "" = "") := by
  have hpr0 :
      (match suite.pull_requests.getD [] with
       | [] => 0
       | pr :: _ => pr.number.getD 0) = 0 := by
    rcases hpr with h | ⟨pr, rest, hp, hn⟩
    · rw [h]
    · rw [hp]
      simp [hn]
  refine ⟨?_, ?_, ?_⟩
  · intro hc
    unfold parseCheckSuite
    rw [hsuite]
    rcases hc with hc | hc <;> simp [hc, hpr0]
  · intro hc
    unfold parseCheckSuite
    rw [hsuite]
    simp [hc, hpr0]
  · intro hb
    rw [hb]
    rfl

/-- C6: `parseAgentOutput` satisfies the round-trip law — an object whose
present fields all have the correct runtime types parses back to exactly
those fields; wrong-typed fields are dropped, not coerced (concrete mixed
object below); parse failure, top-level `null` and arrays yield
`{ result: raw }`.  Totality (never throws) holds by construction: the
model is a total function, as every source path returns and the catch
absorbs the only throwing call. -/
theorem parseAgentOutput_spec :
    (∀ (r sid : Option String) (c d da n : Option Rat) (e : Option Bool)
        (raw : String),
      parseAgentOutput (some (mkAgentJson r c d da n e sid)) raw =
        ⟨r, c, d, da, n, e, sid⟩) ∧
    (∀ raw, parseAgentOutput none raw = { result := some raw }) ∧
    (∀ raw, parseAgentOutput (some Json.null) raw = { result := some raw }) ∧
    (∀ raw xs, parseAgentOutput (some (Json.arr xs)) raw = { result := some raw }) ∧
    (∀ raw, parseAgentOutput (some (Json.obj
        [("result", Json.num 999), ("cost_usd", Json.str "0.05"),
         ("is_error", Json.str "true"), ("session_id", Json.num 12345)])) raw =
      ({} : ParsedAgentOutput)) := by
  refine ⟨?_, ?_, ?_, ?_, ?_⟩
  · intro r sid c d da n e raw
    cases r <;> cases sid <;> cases c <;> cases d <;> cases da <;> cases n <;>
      cases e <;> rfl
  · intro raw
    rfl
  · intro raw
    rfl
  · intro raw xs
    rfl
  · intro raw
    rfl

/-- Witness for C10: a failing check suite with an empty `pull_requests`
array, no `head_branch` and no check runs produces exactly
`ci:failed` with `prNumber = 0`, empty branch and empty logs. -/
theorem parseCheckSuite_defaults_witness :
    parseCheckSuite ⟨some ⟨some "failure", none, some []⟩, none⟩ =
      [SCEvent.ciFailed 0 "" ""] := by
  exact (parseCheckSuite_defaults ⟨some ⟨some "failure", none, some []⟩, none⟩
    ⟨some "failure", none, some []⟩ rfl (Or.inl rfl)).1 (Or.inl rfl)

end Devloop
